import Mathlib

/-!
Shallow embedding of the portfolio valuation, aggregation and
performance-attribution engine of the terminal-portfolio-manager
repository (`app/services/portfolio_service.py`, `app/models/portfolio.py`,
`app/models/stock.py`), together with theorems settling the claims about it.

Conventions of the embedding:
* Python floats are modelled as rationals (`ℚ`); calendar dates as integers
  (a day ordinal); database `TIMESTAMP` columns are irrelevant to every claim
  and are omitted.
* A Python value that may be `None` is an `Option`.
* Python truthiness tests on optional floats (`if x:`) are modelled by the
  corresponding case split: `none` and `some 0` are falsy.
* The SQLite tables are modelled as lists of row structures; the statements
  executed against them (`INSERT` with `CHECK` constraints, `INSERT ... ON
  CONFLICT(snapshot_date) DO UPDATE`, `SELECT ... WHERE symbol = ?`) are
  embedded as list operations with the same semantics.
* `date.today()` is passed explicitly as a parameter where the code calls it.
-/

namespace PortfolioApp

/-- Model of Python `str.upper` (per-character uppercasing). -/
def pyUpper (s : String) : String := ⟨s.data.map Char.toUpper⟩

/-- Model of Python `str.strip` (drop leading and trailing whitespace). -/
def pyStrip (s : String) : String :=
  ⟨((s.data.dropWhile Char.isWhitespace).reverse.dropWhile Char.isWhitespace).reverse⟩

/-- `app/models/stock.py` `StockInfo` (the fields the engine reads). -/
structure StockInfo where
  sector : Option String := none
  industry : Option String := none
deriving DecidableEq

/-- `app/models/stock.py` `StockAnalysis` (the fields the engine reads). -/
structure StockAnalysis where
  info : StockInfo := {}
  current_price : Option ℚ := none
  previous_close : Option ℚ := none
deriving DecidableEq

/-- `app/models/portfolio.py` `Position`: one tax lot, with the computed
fields the service fills in during valuation (all `None` on a freshly
loaded row). -/
structure Position where
  id : Option Nat := none
  symbol : String
  shares : ℚ
  purchase_price : ℚ
  purchase_date : Int
  notes : Option String := none
  current_price : Option ℚ := none
  current_value : Option ℚ := none
  cost_basis : Option ℚ := none
  unrealized_gain : Option ℚ := none
  unrealized_gain_pct : Option ℚ := none
  day_change : Option ℚ := none
  day_change_pct : Option ℚ := none
deriving DecidableEq

/-- The pydantic `field_validator` `Position.uppercase_symbol`:
`v.upper().strip()`, applied to the `symbol` field whenever a `Position`
model is constructed. -/
def uppercase_symbol (v : String) : String := pyStrip (pyUpper v)

/-- A row of the SQLite `positions` table (stored columns only). -/
structure PositionRow where
  id : Nat
  symbol : String
  shares : ℚ
  purchase_price : ℚ
  purchase_date : Int
  notes : Option String := none
deriving DecidableEq

/-- `PortfolioService._row_to_position`: build a `Position` model from a
database row; the pydantic validator canonicalizes the symbol field and all
computed fields start out `None`. -/
def row_to_position (r : PositionRow) : Position :=
  { id := some r.id
    symbol := uppercase_symbol r.symbol
    shares := r.shares
    purchase_price := r.purchase_price
    purchase_date := r.purchase_date
    notes := r.notes }

/-- `PortfolioService.add_position`: `INSERT INTO positions ...` storing
`symbol.upper()` (no strip) and the given fields; the SQLite schema's
`CHECK (shares > 0)` and `CHECK (purchase_price > 0)` reject non-positive
values (no condition on the purchase date exists anywhere on this path).
On success the stored ledger plus the returned `Position` model (whose
`symbol` additionally passes the pydantic validator) are produced. -/
def add_position (ledger : List PositionRow) (next_id : Nat) (symbol : String)
    (shares purchase_price : ℚ) (purchase_date : Int) (notes : Option String) :
    Except String (List PositionRow × Position) :=
  if 0 < shares ∧ 0 < purchase_price then
    Except.ok
      (ledger ++ [{ id := next_id, symbol := pyUpper symbol, shares := shares,
                    purchase_price := purchase_price, purchase_date := purchase_date,
                    notes := notes }],
       { id := some next_id
         symbol := uppercase_symbol (pyUpper symbol)
         shares := shares
         purchase_price := purchase_price
         purchase_date := purchase_date
         notes := notes })
  else Except.error "CHECK constraint failed"

/-- `PortfolioService.get_positions_by_symbol`: `SELECT * FROM positions
WHERE symbol = ? ORDER BY purchase_date`, with the parameter bound to
`symbol.upper()`; rows are converted by `_row_to_position`. -/
def get_positions_by_symbol (ledger : List PositionRow) (symbol : String) :
    List Position :=
  ((ledger.filter (fun r => r.symbol = pyUpper symbol)).mergeSort
      (fun a b => a.purchase_date ≤ b.purchase_date)).map row_to_position

/-- The per-position enrichment loop body of `PortfolioService.get_portfolio`:
sets `cost_basis = shares * purchase_price` unconditionally; when the price
dictionary has the symbol, copies `current_price` and, when that price is
truthy (not `None`, not `0`), fills `current_value`, `unrealized_gain` and
`unrealized_gain_pct` (the latter guarded by `cost_basis > 0`); when both
`current_price` and `previous_close` are truthy, fills `day_change` and
`day_change_pct`. -/
def enrichPosition (price_data : String → Option StockAnalysis) (p : Position) :
    Position :=
  let cb := p.shares * p.purchase_price
  match price_data p.symbol with
  | none => { p with cost_basis := some cb }
  | some analysis =>
      let cv : Option ℚ :=
        match analysis.current_price with
        | some cp => if cp ≠ 0 then some (p.shares * cp) else none
        | none => none
      let dayPair : Option (ℚ × ℚ) :=
        match analysis.current_price, analysis.previous_close with
        | some cp, some pc =>
            if cp ≠ 0 ∧ pc ≠ 0 then
              some ((cp - pc) * p.shares, (cp - pc) / pc * 100)
            else none
        | _, _ => none
      { p with
        cost_basis := some cb
        current_price := analysis.current_price
        current_value := cv
        unrealized_gain := cv.map (fun v => v - cb)
        unrealized_gain_pct :=
          cv.map (fun v => if 0 < cb then (v - cb) / cb * 100 else 0)
        day_change := dayPair.map (·.1)
        day_change_pct := dayPair.map (·.2) }

/-- `app/models/portfolio.py` `AggregatedPosition`. -/
structure AggregatedPosition where
  symbol : String
  total_shares : ℚ
  total_cost_basis : ℚ
  average_cost : ℚ
  current_price : Option ℚ := none
  current_value : Option ℚ := none
  unrealized_gain : Option ℚ := none
  unrealized_gain_pct : Option ℚ := none
  weight_pct : Option ℚ := none
  sector : Option String := none
  industry : Option String := none
  lots : List Position := []
deriving DecidableEq

/-- One step of the grouping loop of `_aggregate_positions`: the Python
`dict` keyed by symbol keeps keys in first-insertion order and appends each
position to its symbol's list. -/
def insertLot (groups : List (String × List Position)) (p : Position) :
    List (String × List Position) :=
  if groups.any (fun g => g.1 = p.symbol) then
    groups.map (fun g => if g.1 = p.symbol then (g.1, g.2 ++ [p]) else g)
  else groups ++ [(p.symbol, [p])]

/-- The `symbol_groups` dictionary built by `_aggregate_positions`. -/
def symbol_groups (positions : List Position) : List (String × List Position) :=
  positions.foldl insertLot []

/-- The body of the per-group loop of `_aggregate_positions`: totals,
average cost (`total_cost / total_shares if total_shares > 0 else 0`),
price-derived fields (each guarded by the same truthiness tests as the
Python code) and the portfolio weight. -/
def aggregate_one (price_data : String → Option StockAnalysis)
    (total_portfolio_value : ℚ) (symbol : String) (lots : List Position) :
    AggregatedPosition :=
  let total_shares := (lots.map (·.shares)).sum
  let total_cost := (lots.map (fun p => p.shares * p.purchase_price)).sum
  let average_cost := if 0 < total_shares then total_cost / total_shares else 0
  let pdata := price_data symbol
  let current_price : Option ℚ :=
    match pdata with
    | some a => a.current_price
    | none => none
  let current_value : Option ℚ :=
    match pdata with
    | some a =>
        match a.current_price with
        | some cp => if cp ≠ 0 then some (total_shares * cp) else none
        | none => none
    | none => none
  let unrealized_gain : Option ℚ :=
    match current_value with
    | some cv => if cv ≠ 0 then some (cv - total_cost) else none
    | none => none
  let unrealized_gain_pct : Option ℚ :=
    match unrealized_gain with
    | some ug => if 0 < total_cost then some (ug / total_cost * 100) else none
    | none => none
  let weight_pct : Option ℚ :=
    match current_value with
    | some cv =>
        if cv ≠ 0 ∧ 0 < total_portfolio_value then
          some (cv / total_portfolio_value * 100)
        else none
    | none => none
  { symbol := symbol
    total_shares := total_shares
    total_cost_basis := total_cost
    average_cost := average_cost
    current_price := current_price
    current_value := current_value
    unrealized_gain := unrealized_gain
    unrealized_gain_pct := unrealized_gain_pct
    weight_pct := weight_pct
    sector := match pdata with
      | some a => a.info.sector
      | none => none
    industry := match pdata with
      | some a => a.info.industry
      | none => none
    lots := lots }

/-- `PortfolioService._aggregate_positions`: group the (already enriched)
positions by symbol, build one `AggregatedPosition` per group, and sort by
`current_value or 0` descending (`list.sort` is stable, as is `mergeSort`
with the reversed-comparison key used here). -/
def aggregate_positions (positions : List Position)
    (price_data : String → Option StockAnalysis) : List AggregatedPosition :=
  let total_portfolio_value := (positions.map (fun p => p.current_value.getD 0)).sum
  let aggregated := (symbol_groups positions).map
    (fun g => aggregate_one price_data total_portfolio_value g.1 g.2)
  aggregated.mergeSort (fun x y => y.current_value.getD 0 ≤ x.current_value.getD 0)

/-- `app/models/portfolio.py` `Portfolio` (the sector-allocation dict is an
insertion-ordered association list, like a Python dict). -/
structure Portfolio where
  positions : List Position := []
  aggregated : List AggregatedPosition := []
  total_cost_basis : ℚ := 0
  total_current_value : ℚ := 0
  total_unrealized_gain : ℚ := 0
  total_unrealized_gain_pct : ℚ := 0
  total_day_change : ℚ := 0
  total_day_change_pct : ℚ := 0
  num_positions : Nat := 0
  num_symbols : Nat := 0
  sector_allocation : List (String × ℚ) := []
deriving DecidableEq

/-- One step of the sector-allocation loop of `get_portfolio`: an
aggregated position contributes `current_value / total_current_value * 100`
to its sector's running weight when its sector and current value are truthy
and the portfolio-wide current value is positive. -/
def addSectorWeight (total_current_value : ℚ) (alloc : List (String × ℚ))
    (agg : AggregatedPosition) : List (String × ℚ) :=
  match agg.sector, agg.current_value with
  | some sec, some cv =>
      if sec ≠ "" ∧ cv ≠ 0 ∧ 0 < total_current_value then
        if alloc.any (fun e => e.1 = sec) then
          alloc.map (fun e =>
            if e.1 = sec then (e.1, e.2 + cv / total_current_value * 100) else e)
        else alloc ++ [(sec, cv / total_current_value * 100)]
      else alloc
  | _, _ => alloc

/-- `PortfolioService.get_portfolio`, taking the ledger rows (what
`get_all_positions` returns from the database) and the price dictionary as
it stands after the best-effort fetch loop (symbols whose
`get_stock_analysis` call raised are simply absent). Returns `Portfolio()`
for an empty ledger; otherwise enriches every position, aggregates, and
computes the portfolio-wide totals. -/
def get_portfolio (rows : List PositionRow)
    (price_data : String → Option StockAnalysis) : Portfolio :=
  let positions := rows.map row_to_position
  if positions.isEmpty then {}
  else
    let enriched := positions.map (enrichPosition price_data)
    let aggregated := aggregate_positions enriched price_data
    let total_cost_basis := (enriched.map (fun p => p.cost_basis.getD 0)).sum
    let total_current_value := (enriched.map (fun p => p.current_value.getD 0)).sum
    let total_unrealized_gain := total_current_value - total_cost_basis
    let total_day_change := (enriched.map (fun p => p.day_change.getD 0)).sum
    { positions := enriched
      aggregated := aggregated
      total_cost_basis := total_cost_basis
      total_current_value := total_current_value
      total_unrealized_gain := total_unrealized_gain
      total_unrealized_gain_pct :=
        if 0 < total_cost_basis then
          total_unrealized_gain / total_cost_basis * 100
        else 0
      total_day_change := total_day_change
      total_day_change_pct :=
        if 0 < total_current_value - total_day_change then
          total_day_change / (total_current_value - total_day_change) * 100
        else 0
      num_positions := enriched.length
      num_symbols := ((positions.map (·.symbol)).dedup).length
      sector_allocation := aggregated.foldl (addSectorWeight total_current_value) [] }

/-- `app/models/portfolio.py` `HoldingPerformance`. -/
structure HoldingPerformance where
  symbol : String
  current_value : ℚ
  cost_basis : ℚ
  unrealized_gain : ℚ
  unrealized_gain_pct : ℚ
  weight_pct : ℚ
  contribution_pct : ℚ
  sector : Option String := none
deriving DecidableEq

/-- `app/models/portfolio.py` `PortfolioPerformance`. -/
structure PortfolioPerformance where
  holdings : List HoldingPerformance := []
  top_gainers : List HoldingPerformance := []
  top_losers : List HoldingPerformance := []
  total_value : ℚ := 0
  total_cost_basis : ℚ := 0
  total_gain : ℚ := 0
  total_gain_pct : ℚ := 0
  sector_performance : List (String × ℚ) := []
deriving DecidableEq

/-- The contribution-percent computation of the loop of `get_performance`:
`unrealized_gain / abs(total_gain) * 100` (or `0` when the total gain is
exactly `0`), then forced negative when the holding gain's sign opposes the
total's. -/
def contribution_pct_calc (total_gain ug : ℚ) : ℚ :=
  let contribution := if total_gain ≠ 0 then ug / |total_gain| * 100 else 0
  if 0 < total_gain ∧ ug < 0 then -|contribution|
  else if total_gain < 0 ∧ 0 < ug then -|contribution|
  else contribution

/-- Continuation of the loop body: the `HoldingPerformance` record built for
an aggregated position that has both fields. -/
def holdingOf (total_gain : ℚ) (agg : AggregatedPosition) :
    Option HoldingPerformance :=
  match agg.current_value, agg.unrealized_gain with
  | some cv, some ug =>
      let contribution := contribution_pct_calc total_gain ug
      some
        { symbol := agg.symbol
          current_value := cv
          cost_basis := agg.total_cost_basis
          unrealized_gain := ug
          unrealized_gain_pct := agg.unrealized_gain_pct.getD 0
          weight_pct := agg.weight_pct.getD 0
          contribution_pct := contribution
          sector := agg.sector }
  | _, _ => none

/-- The sector key used by the sector-performance loop of
`get_performance`: `h.sector or "Unknown"` (Python truthiness, so an empty
string also falls back). -/
def sectorKey (h : HoldingPerformance) : String :=
  match h.sector with
  | some s => if s ≠ "" then s else "Unknown"
  | none => "Unknown"

/-- A Python `dict.get(k, 0) + v` accumulation step (`dict` keeps keys in
first-insertion order). -/
def assocAdd (m : List (String × ℚ)) (k : String) (v : ℚ) : List (String × ℚ) :=
  if m.any (fun e => e.1 = k) then
    m.map (fun e => if e.1 = k then (e.1, e.2 + v) else e)
  else m ++ [(k, v)]

/-- Lookup in an association list modelling a Python dict (`0` default). -/
def assocGet (m : List (String × ℚ)) (k : String) : ℚ :=
  ((m.find? (fun e => e.1 = k)).map (·.2)).getD 0

/-- `PortfolioService.get_performance`: build the per-holding performance
list (skipping unpriced holdings), sort by unrealized gain descending, take
top-5 gainers and losers, and compute the per-sector return map. -/
def get_performance (portfolio : Portfolio) : PortfolioPerformance :=
  if portfolio.aggregated.isEmpty then {}
  else
    let total_gain := portfolio.total_unrealized_gain
    let holdings := portfolio.aggregated.filterMap (holdingOf total_gain)
    let sorted_by_gain :=
      holdings.mergeSort (fun a b => b.unrealized_gain ≤ a.unrealized_gain)
    let top_gainers := (sorted_by_gain.filter (fun h => 0 < h.unrealized_gain)).take 5
    let top_losers :=
      (sorted_by_gain.reverse.filter (fun h => h.unrealized_gain < 0)).take 5
    let sector_gains :=
      holdings.foldl (fun m h => assocAdd m (sectorKey h) h.unrealized_gain) []
    let sector_values :=
      holdings.foldl (fun m h => assocAdd m (sectorKey h) h.cost_basis) []
    { holdings := sorted_by_gain
      top_gainers := top_gainers
      top_losers := top_losers
      total_value := portfolio.total_current_value
      total_cost_basis := portfolio.total_cost_basis
      total_gain := total_gain
      total_gain_pct := portfolio.total_unrealized_gain_pct
      sector_performance := sector_gains.map (fun e =>
        (e.1,
         if 0 < assocGet sector_values e.1 then
           e.2 / assocGet sector_values e.1 * 100
         else 0)) }

/-- A row of the SQLite `portfolio_snapshots` table; `snapshot_date` is
declared `UNIQUE` by the schema. -/
structure SnapshotRow where
  snapshot_date : Int
  total_value : ℚ
  total_cost_basis : ℚ
  total_gain : ℚ
  total_gain_pct : ℚ
  num_positions : Nat
deriving DecidableEq

/-- The `PortfolioSnapshot` built by `save_snapshot` from a portfolio. -/
def snapshot_of (today : Int) (portfolio : Portfolio) : SnapshotRow :=
  { snapshot_date := today
    total_value := portfolio.total_current_value
    total_cost_basis := portfolio.total_cost_basis
    total_gain := portfolio.total_unrealized_gain
    total_gain_pct := portfolio.total_unrealized_gain_pct
    num_positions := portfolio.num_positions }

/-- `PortfolioService.save_snapshot`: `INSERT INTO portfolio_snapshots ...
ON CONFLICT(snapshot_date) DO UPDATE SET` each value column — an upsert
keyed on the date: if a row with today's date exists its value columns are
overwritten in place, otherwise a new row is appended. -/
def save_snapshot (store : List SnapshotRow) (today : Int)
    (portfolio : Portfolio) : List SnapshotRow :=
  let row := snapshot_of today portfolio
  if store.any (fun r => r.snapshot_date = today) then
    store.map (fun r => if r.snapshot_date = today then row else r)
  else store ++ [row]

/-- `app/models/portfolio.py` `PortfolioHistory`. -/
structure PortfolioHistory where
  snapshots : List SnapshotRow := []
  earliest_date : Option Int := none
  latest_date : Option Int := none
  starting_value : Option ℚ := none
  current_value : Option ℚ := none
  total_change : Option ℚ := none
  total_change_pct : Option ℚ := none
  high_value : Option ℚ := none
  high_date : Option Int := none
  low_value : Option ℚ := none
  low_date : Option Int := none
deriving DecidableEq

/-- Python `max(xs, key=f)`: fold keeping the current element unless the
candidate's key is strictly greater, so the first occurrence of the maximum
wins ties. -/
def pyMax {α : Type} (f : α → ℚ) (x : α) (l : List α) : α :=
  l.foldl (fun b a => if f b < f a then a else b) x

/-- Python `min(xs, key=f)`: dual of `pyMax`; the first occurrence of the
minimum wins ties. -/
def pyMin {α : Type} (f : α → ℚ) (x : α) (l : List α) : α :=
  l.foldl (fun b a => if f a < f b then a else b) x

/-- `PortfolioService.get_history`, taking the rows the `SELECT` returns
for the window (ascending by date). Empty result: `PortfolioHistory()`.
Otherwise first/last give the endpoints, `max`/`min` by total value give
high/low, and the change percent is guarded by `first.total_value > 0`. -/
def get_history (rows : List SnapshotRow) : PortfolioHistory :=
  match rows with
  | [] => {}
  | first :: rest =>
      let last := rest.getLastD first
      let high := pyMax (·.total_value) first rest
      let low := pyMin (·.total_value) first rest
      let total_change := last.total_value - first.total_value
      { snapshots := first :: rest
        earliest_date := some first.snapshot_date
        latest_date := some last.snapshot_date
        starting_value := some first.total_value
        current_value := some last.total_value
        total_change := some total_change
        total_change_pct := some
          (if 0 < first.total_value then
            total_change / first.total_value * 100
          else 0)
        high_value := some high.total_value
        high_date := some high.snapshot_date
        low_value := some low.total_value
        low_date := some low.snapshot_date }

/-! ### Helper lemmas about the enrichment step -/

lemma enrichPosition_symbol (pd : String → Option StockAnalysis) (p : Position) :
    (enrichPosition pd p).symbol = p.symbol := by
  cases h : pd p.symbol <;> simp [enrichPosition, h]

lemma enrichPosition_shares (pd : String → Option StockAnalysis) (p : Position) :
    (enrichPosition pd p).shares = p.shares := by
  cases h : pd p.symbol <;> simp [enrichPosition, h]

lemma enrichPosition_purchase_price (pd : String → Option StockAnalysis)
    (p : Position) :
    (enrichPosition pd p).purchase_price = p.purchase_price := by
  cases h : pd p.symbol <;> simp [enrichPosition, h]

lemma enrichPosition_cost_basis (pd : String → Option StockAnalysis) (p : Position) :
    (enrichPosition pd p).cost_basis = some (p.shares * p.purchase_price) := by
  cases h : pd p.symbol <;> simp [enrichPosition, h]

lemma enrichPosition_current_value (pd : String → Option StockAnalysis)
    (p : Position) (hcv : p.current_value = none) :
    (enrichPosition pd p).current_value =
      match pd p.symbol with
      | some a =>
          match a.current_price with
          | some cp => if cp ≠ 0 then some (p.shares * cp) else none
          | none => none
      | none => none := by
  cases h : pd p.symbol with
  | none => simp [enrichPosition, h, hcv]
  | some a => cases hcp : a.current_price <;> simp [enrichPosition, h, hcp]

lemma enrichPosition_day_change (pd : String → Option StockAnalysis)
    (p : Position) (hdc : p.day_change = none) :
    (enrichPosition pd p).day_change =
      match pd p.symbol with
      | some a =>
          match a.current_price, a.previous_close with
          | some cp, some pc =>
              if cp ≠ 0 ∧ pc ≠ 0 then some ((cp - pc) * p.shares) else none
          | _, _ => none
      | none => none := by
  cases h : pd p.symbol with
  | none => simp [enrichPosition, h, hdc]
  | some a =>
      cases hcp : a.current_price <;> cases hpc : a.previous_close <;>
        simp [enrichPosition, h, hcp, hpc]

lemma enrichPosition_day_change_pct (pd : String → Option StockAnalysis)
    (p : Position) (hdc : p.day_change_pct = none) :
    (enrichPosition pd p).day_change_pct =
      match pd p.symbol with
      | some a =>
          match a.current_price, a.previous_close with
          | some cp, some pc =>
              if cp ≠ 0 ∧ pc ≠ 0 then some ((cp - pc) / pc * 100) else none
          | _, _ => none
      | none => none := by
  cases h : pd p.symbol with
  | none => simp [enrichPosition, h, hdc]
  | some a =>
      cases hcp : a.current_price <;> cases hpc : a.previous_close <;>
        simp [enrichPosition, h, hcp, hpc]

lemma enrichPosition_unrealized_gain (pd : String → Option StockAnalysis)
    (p : Position) (hcv : p.unrealized_gain = none) (hcv0 : p.current_value = none) :
    (enrichPosition pd p).unrealized_gain =
      ((enrichPosition pd p).current_value).map
        (fun v => v - p.shares * p.purchase_price) := by
  cases h : pd p.symbol with
  | none => simp [enrichPosition, h, hcv, hcv0]
  | some a => cases hcp : a.current_price <;> simp [enrichPosition, h, hcp]

lemma enrichPosition_unrealized_gain_pct (pd : String → Option StockAnalysis)
    (p : Position) (hcv : p.unrealized_gain_pct = none) (hcv0 : p.current_value = none) :
    (enrichPosition pd p).unrealized_gain_pct =
      ((enrichPosition pd p).current_value).map
        (fun v =>
          if 0 < p.shares * p.purchase_price then
            (v - p.shares * p.purchase_price) / (p.shares * p.purchase_price) * 100
          else 0) := by
  cases h : pd p.symbol with
  | none => simp [enrichPosition, h, hcv, hcv0]
  | some a => cases hcp : a.current_price <;> simp [enrichPosition, h, hcp]

lemma enrichPosition_current_price (pd : String → Option StockAnalysis)
    (p : Position) (hcp : p.current_price = none) :
    (enrichPosition pd p).current_price =
      match pd p.symbol with
      | some a => a.current_price
      | none => none := by
  cases h : pd p.symbol <;> simp [enrichPosition, h, hcp]

/-! ### The grouping dictionary of `_aggregate_positions` -/

lemma insertLot_spec (acc : List (String × List Position)) (p : Position)
    (done : List Position)
    (h1 : ∀ sg ∈ acc, sg.2 = done.filter (fun q => q.symbol = sg.1) ∧ sg.2 ≠ [])
    (h2 : ∀ q ∈ done, ∃ sg ∈ acc, sg.1 = q.symbol) :
    (∀ sg ∈ insertLot acc p,
      sg.2 = (done ++ [p]).filter (fun q => q.symbol = sg.1) ∧ sg.2 ≠ []) ∧
    (∀ q ∈ done ++ [p], ∃ sg ∈ insertLot acc p, sg.1 = q.symbol) := by
  by_cases hany : acc.any (fun g => g.1 = p.symbol)
  · obtain ⟨g0, hg0, hg0k⟩ := List.any_eq_true.1 hany
    have hk0 : g0.1 = p.symbol := of_decide_eq_true hg0k
    have hins : insertLot acc p =
        acc.map (fun g => if g.1 = p.symbol then (g.1, g.2 ++ [p]) else g) := by
      simp only [insertLot, if_pos hany]
    constructor
    · intro sg hsg
      rw [hins, List.mem_map] at hsg
      obtain ⟨g, hg, rfl⟩ := hsg
      by_cases hk : g.1 = p.symbol
      · simp only [hk, if_pos rfl]
        refine ⟨?_, by simp⟩
        rw [List.filter_append, (h1 g hg).1, hk]
        simp [List.filter]
      · simp only [if_neg hk]
        refine ⟨?_, (h1 g hg).2⟩
        rw [List.filter_append, (h1 g hg).1]
        have hne : p.symbol ≠ g.1 := fun h => hk h.symm
        simp [List.filter, hne]
    · intro q hq
      rcases List.mem_append.1 hq with hq | hq
      · obtain ⟨sg, hsg, hk⟩ := h2 q hq
        refine ⟨if sg.1 = p.symbol then (sg.1, sg.2 ++ [p]) else sg, ?_, ?_⟩
        · rw [hins, List.mem_map]; exact ⟨sg, hsg, rfl⟩
        · have hfst : (if sg.1 = p.symbol then (sg.1, sg.2 ++ [p]) else sg).1 = sg.1 := by
            split <;> rfl
          rw [hfst, hk]
      · have hq' : q = p := by simpa using hq
        subst hq'
        refine ⟨(g0.1, g0.2 ++ [q]), ?_, hk0⟩
        rw [hins, List.mem_map]
        exact ⟨g0, hg0, by rw [if_pos hk0]⟩
  · have hins : insertLot acc p = acc ++ [(p.symbol, [p])] := by
      simp only [insertLot, if_neg hany]
    have hnokey : ∀ g ∈ acc, g.1 ≠ p.symbol := by
      intro g hg hk
      exact hany (List.any_eq_true.2 ⟨g, hg, decide_eq_true hk⟩)
    have hdone : done.filter (fun q => q.symbol = p.symbol) = [] := by
      rw [List.filter_eq_nil_iff]
      intro q hq hqk
      obtain ⟨sg, hsg, hk⟩ := h2 q hq
      exact hnokey sg hsg (hk.trans (of_decide_eq_true hqk))
    constructor
    · intro sg hsg
      rw [hins] at hsg
      rcases List.mem_append.1 hsg with hsg | hsg
      · refine ⟨?_, (h1 sg hsg).2⟩
        rw [List.filter_append, (h1 sg hsg).1]
        have hne : p.symbol ≠ sg.1 := fun h => hnokey sg hsg h.symm
        simp [List.filter, hne]
      · have hsg' : sg = (p.symbol, [p]) := by simpa using hsg
        subst hsg'
        refine ⟨?_, by simp⟩
        rw [List.filter_append, hdone]
        simp [List.filter]
    · intro q hq
      rcases List.mem_append.1 hq with hq | hq
      · obtain ⟨sg, hsg, hk⟩ := h2 q hq
        exact ⟨sg, by rw [hins]; exact List.mem_append_left _ hsg, hk⟩
      · have hq' : q = p := by simpa using hq
        subst hq'
        exact ⟨(q.symbol, [q]), by rw [hins]; simp, rfl⟩

lemma symbol_groups_loop (ps : List Position) :
    ∀ (acc : List (String × List Position)) (done : List Position),
      (∀ sg ∈ acc, sg.2 = done.filter (fun q => q.symbol = sg.1) ∧ sg.2 ≠ []) →
      (∀ q ∈ done, ∃ sg ∈ acc, sg.1 = q.symbol) →
      ∀ sg ∈ ps.foldl insertLot acc,
        sg.2 = (done ++ ps).filter (fun q => q.symbol = sg.1) ∧ sg.2 ≠ [] := by
  induction ps with
  | nil =>
      intro acc done h1 _ sg hsg
      simpa using h1 sg hsg
  | cons p t ih =>
      intro acc done h1 h2 sg hsg
      obtain ⟨s1, s2⟩ := insertLot_spec acc p done h1 h2
      have := ih (insertLot acc p) (done ++ [p]) s1 s2 sg
        (by simpa [List.foldl_cons] using hsg)
      simpa [List.append_assoc] using this

/-- Every group built by `symbol_groups` is exactly the nonempty sublist of
the input positions carrying that symbol. -/
lemma symbol_groups_spec (positions : List Position) :
    ∀ sg ∈ symbol_groups positions,
      sg.2 = positions.filter (fun q => q.symbol = sg.1) ∧ sg.2 ≠ [] := by
  have := symbol_groups_loop positions [] [] (by simp) (by simp)
  simpa [symbol_groups] using this

/-! ### Projections of `aggregate_one` and membership in the aggregated list -/

lemma aggregate_one_symbol (pd : String → Option StockAnalysis) (tpv : ℚ)
    (s : String) (lots : List Position) :
    (aggregate_one pd tpv s lots).symbol = s := by
  simp [aggregate_one]

lemma aggregate_one_lots (pd : String → Option StockAnalysis) (tpv : ℚ)
    (s : String) (lots : List Position) :
    (aggregate_one pd tpv s lots).lots = lots := by
  simp [aggregate_one]

lemma aggregate_one_total_shares (pd : String → Option StockAnalysis) (tpv : ℚ)
    (s : String) (lots : List Position) :
    (aggregate_one pd tpv s lots).total_shares = (lots.map (·.shares)).sum := by
  simp [aggregate_one]

lemma aggregate_one_total_cost_basis (pd : String → Option StockAnalysis) (tpv : ℚ)
    (s : String) (lots : List Position) :
    (aggregate_one pd tpv s lots).total_cost_basis
      = (lots.map (fun p => p.shares * p.purchase_price)).sum := by
  simp [aggregate_one]

lemma aggregate_one_average_cost (pd : String → Option StockAnalysis) (tpv : ℚ)
    (s : String) (lots : List Position) :
    (aggregate_one pd tpv s lots).average_cost
      = if 0 < (lots.map (·.shares)).sum then
          (lots.map (fun p => p.shares * p.purchase_price)).sum
            / (lots.map (·.shares)).sum
        else 0 := by
  simp [aggregate_one]

lemma aggregate_one_current_value (pd : String → Option StockAnalysis) (tpv : ℚ)
    (s : String) (lots : List Position) :
    (aggregate_one pd tpv s lots).current_value =
      match pd s with
      | some a =>
          match a.current_price with
          | some cp => if cp ≠ 0 then some ((lots.map (·.shares)).sum * cp) else none
          | none => none
      | none => none := by
  cases h : pd s with
  | none => simp [aggregate_one, h]
  | some a => cases hcp : a.current_price <;> simp [aggregate_one, h, hcp]

lemma aggregate_one_unrealized_gain (pd : String → Option StockAnalysis) (tpv : ℚ)
    (s : String) (lots : List Position) :
    (aggregate_one pd tpv s lots).unrealized_gain =
      match (aggregate_one pd tpv s lots).current_value with
      | some cv =>
          if cv ≠ 0 then
            some (cv - (lots.map (fun p => p.shares * p.purchase_price)).sum)
          else none
      | none => none := by
  cases h : pd s with
  | none => simp [aggregate_one, h]
  | some a => cases hcp : a.current_price <;> simp [aggregate_one, h, hcp]

lemma aggregate_one_unrealized_gain_pct (pd : String → Option StockAnalysis)
    (tpv : ℚ) (s : String) (lots : List Position) :
    (aggregate_one pd tpv s lots).unrealized_gain_pct =
      match (aggregate_one pd tpv s lots).unrealized_gain with
      | some ug =>
          if 0 < (lots.map (fun p => p.shares * p.purchase_price)).sum then
            some (ug / (lots.map (fun p => p.shares * p.purchase_price)).sum * 100)
          else none
      | none => none := by
  cases h : pd s with
  | none => simp [aggregate_one, h]
  | some a => cases hcp : a.current_price <;> simp [aggregate_one, h, hcp]

lemma mem_aggregate_positions (positions : List Position)
    (pd : String → Option StockAnalysis) (a : AggregatedPosition)
    (ha : a ∈ aggregate_positions positions pd) :
    ∃ sg ∈ symbol_groups positions,
      a = aggregate_one pd
        ((positions.map (fun p => p.current_value.getD 0)).sum) sg.1 sg.2 := by
  simp only [aggregate_positions, List.mem_mergeSort, List.mem_map] at ha
  obtain ⟨sg, hsg, rfl⟩ := ha
  exact ⟨sg, hsg, rfl⟩

/-- C6: aggregation groups lots by canonical symbol; per-group totals are
the sums of member-lot shares and cost bases, and the average cost is their
quotient when total shares are positive (`0` when they are zero), making
`average_cost * total_shares = total_cost_basis` whenever shares are
positive. -/
theorem c6_aggregation_sums (positions : List Position)
    (price_data : String → Option StockAnalysis) :
    ∀ a ∈ aggregate_positions positions price_data,
      a.lots = positions.filter (fun q => q.symbol = a.symbol) ∧
      a.total_shares = (a.lots.map (·.shares)).sum ∧
      a.total_cost_basis = (a.lots.map (fun p => p.shares * p.purchase_price)).sum ∧
      (0 < a.total_shares →
        a.average_cost = a.total_cost_basis / a.total_shares ∧
        a.average_cost * a.total_shares = a.total_cost_basis) ∧
      (a.total_shares = 0 → a.average_cost = 0) := by
  intro a ha
  obtain ⟨sg, hsg, rfl⟩ := mem_aggregate_positions positions price_data a ha
  set tpv := (positions.map (fun p => p.current_value.getD 0)).sum with htpv
  have hlots := aggregate_one_lots price_data tpv sg.1 sg.2
  have hsym := aggregate_one_symbol price_data tpv sg.1 sg.2
  have hts := aggregate_one_total_shares price_data tpv sg.1 sg.2
  have htc := aggregate_one_total_cost_basis price_data tpv sg.1 sg.2
  have havg := aggregate_one_average_cost price_data tpv sg.1 sg.2
  have hgrp := (symbol_groups_spec positions sg hsg).1
  refine ⟨by rw [hlots, hsym, hgrp], by rw [hts, hlots], by rw [htc, hlots], ?_, ?_⟩
  · intro hpos
    rw [hts] at hpos
    rw [havg, if_pos hpos, hts, htc]
    exact ⟨rfl, div_mul_cancel₀ _ (ne_of_gt hpos)⟩
  · intro hzero
    rw [hts] at hzero
    rw [havg, hzero]
    simp

/-! ### Projections of `get_portfolio` -/

lemma get_portfolio_positions (rows : List PositionRow)
    (pd : String → Option StockAnalysis) :
    (get_portfolio rows pd).positions
      = rows.map (fun r => enrichPosition pd (row_to_position r)) := by
  cases rows with
  | nil => simp [get_portfolio]
  | cons r t => simp [get_portfolio, List.map_map]

lemma get_portfolio_total_cost_basis (rows : List PositionRow)
    (pd : String → Option StockAnalysis) :
    (get_portfolio rows pd).total_cost_basis
      = (((get_portfolio rows pd).positions).map (fun p => p.cost_basis.getD 0)).sum := by
  cases rows with
  | nil => simp [get_portfolio]
  | cons r t => simp [get_portfolio]

lemma get_portfolio_total_current_value (rows : List PositionRow)
    (pd : String → Option StockAnalysis) :
    (get_portfolio rows pd).total_current_value
      = (((get_portfolio rows pd).positions).map (fun p => p.current_value.getD 0)).sum := by
  cases rows with
  | nil => simp [get_portfolio]
  | cons r t => simp [get_portfolio]

lemma get_portfolio_total_day_change (rows : List PositionRow)
    (pd : String → Option StockAnalysis) :
    (get_portfolio rows pd).total_day_change
      = (((get_portfolio rows pd).positions).map (fun p => p.day_change.getD 0)).sum := by
  cases rows with
  | nil => simp [get_portfolio]
  | cons r t => simp [get_portfolio]

lemma get_portfolio_total_unrealized_gain (rows : List PositionRow)
    (pd : String → Option StockAnalysis) :
    (get_portfolio rows pd).total_unrealized_gain
      = (get_portfolio rows pd).total_current_value
        - (get_portfolio rows pd).total_cost_basis := by
  cases rows with
  | nil => simp [get_portfolio]
  | cons r t => simp [get_portfolio]

lemma get_portfolio_aggregated (rows : List PositionRow)
    (pd : String → Option StockAnalysis) :
    (get_portfolio rows pd).aggregated
      = aggregate_positions ((get_portfolio rows pd).positions) pd := by
  cases rows with
  | nil => simp [get_portfolio, aggregate_positions, symbol_groups]
  | cons r t => simp [get_portfolio, get_portfolio_positions]

lemma get_portfolio_sector_allocation (rows : List PositionRow)
    (pd : String → Option StockAnalysis) :
    (get_portfolio rows pd).sector_allocation
      = ((get_portfolio rows pd).aggregated).foldl
          (addSectorWeight ((get_portfolio rows pd).total_current_value)) [] := by
  cases rows with
  | nil => simp [get_portfolio]
  | cons r t => simp [get_portfolio]

/-- C2: portfolio totals — the cost basis sums `shares * purchase_price`
over every lot whether or not its symbol is priced, the current value sums
`shares * current_price` over priced lots only (unpriced lots contribute
`0`), and the unrealized gain is their difference. -/
theorem c2_portfolio_totals (rows : List PositionRow)
    (price_data : String → Option StockAnalysis) :
    (get_portfolio rows price_data).total_cost_basis
      = (rows.map (fun r => r.shares * r.purchase_price)).sum ∧
    (get_portfolio rows price_data).total_current_value
      = (rows.map (fun r =>
          match price_data (uppercase_symbol r.symbol) with
          | some a =>
              match a.current_price with
              | some cp => if cp ≠ 0 then r.shares * cp else 0
              | none => 0
          | none => 0)).sum ∧
    (get_portfolio rows price_data).total_unrealized_gain
      = (get_portfolio rows price_data).total_current_value
        - (get_portfolio rows price_data).total_cost_basis := by
  refine ⟨?_, ?_, get_portfolio_total_unrealized_gain rows price_data⟩
  · rw [get_portfolio_total_cost_basis, get_portfolio_positions, List.map_map]
    congr 1
    apply List.map_congr_left
    intro r _
    simp only [Function.comp]
    rw [enrichPosition_cost_basis]
    simp [row_to_position]
  · rw [get_portfolio_total_current_value, get_portfolio_positions, List.map_map]
    congr 1
    apply List.map_congr_left
    intro r _
    simp only [Function.comp]
    rw [enrichPosition_current_value _ _ (by simp [row_to_position])]
    simp only [row_to_position]
    cases h : price_data (uppercase_symbol r.symbol) with
    | none => simp [h]
    | some a =>
        cases hcp : a.current_price with
        | none => simp [h, hcp]
        | some cp =>
            by_cases hz : cp = 0 <;> simp [h, hcp, hz]

/-! ### The contribution-percent sign behaviour -/

lemma contribution_pct_calc_spec (T ug : ℚ) :
    (T = 0 → contribution_pct_calc T ug = 0) ∧
    (T ≠ 0 → |contribution_pct_calc T ug| = |ug| / |T| * 100) ∧
    (0 < T → ug < 0 → contribution_pct_calc T ug < 0) ∧
    (T < 0 → 0 < ug → contribution_pct_calc T ug < 0) ∧
    (0 < T → 0 ≤ ug → 0 ≤ contribution_pct_calc T ug) ∧
    (T < 0 → ug < 0 → contribution_pct_calc T ug < 0) := by
  have habs : |ug / |T| * 100| = |ug| / |T| * 100 := by
    rw [abs_mul, abs_div, abs_abs]
    norm_num
  have h100 : (0:ℚ) < 100 := by norm_num
  refine ⟨?_, ?_, ?_, ?_, ?_, ?_⟩
  · intro h
    subst h
    simp [contribution_pct_calc]
  · intro hT
    by_cases h1 : 0 < T ∧ ug < 0
    · simp only [contribution_pct_calc, if_pos h1, if_pos hT, abs_neg, abs_abs]
      exact habs
    · by_cases h2 : T < 0 ∧ 0 < ug
      · simp only [contribution_pct_calc, if_neg h1, if_pos h2, if_pos hT, abs_neg,
          abs_abs]
        exact habs
      · simp only [contribution_pct_calc, if_neg h1, if_neg h2, if_pos hT]
        exact habs
  · intro hT hug
    have habsT : (0:ℚ) < |T| := abs_pos.2 (ne_of_gt hT)
    have hc0 : ug / |T| * 100 < 0 :=
      mul_neg_of_neg_of_pos (div_neg_of_neg_of_pos hug habsT) h100
    simp only [contribution_pct_calc, if_pos (⟨hT, hug⟩ : 0 < T ∧ ug < 0),
      if_pos (ne_of_gt hT)]
    exact neg_lt_zero.2 (abs_pos.2 (ne_of_lt hc0))
  · intro hT hug
    have habsT : (0:ℚ) < |T| := abs_pos.2 (ne_of_lt hT)
    have hc0 : 0 < ug / |T| * 100 := mul_pos (div_pos hug habsT) h100
    have h1 : ¬(0 < T ∧ ug < 0) := fun hx => absurd hT (not_lt.2 (le_of_lt hx.1))
    simp only [contribution_pct_calc, if_neg h1,
      if_pos (⟨hT, hug⟩ : T < 0 ∧ 0 < ug), if_pos (ne_of_lt hT)]
    exact neg_lt_zero.2 (abs_pos.2 (ne_of_gt hc0))
  · intro hT hug
    have h1 : ¬(0 < T ∧ ug < 0) := fun hx => absurd hx.2 (not_lt.2 hug)
    have h2 : ¬(T < 0 ∧ 0 < ug) := fun hx => absurd hx.1 (not_lt.2 (le_of_lt hT))
    simp only [contribution_pct_calc, if_neg h1, if_neg h2, if_pos (ne_of_gt hT)]
    exact mul_nonneg (div_nonneg hug (abs_nonneg T)) (le_of_lt h100)
  · intro hT hug
    have habsT : (0:ℚ) < |T| := abs_pos.2 (ne_of_lt hT)
    have hc0 : ug / |T| * 100 < 0 :=
      mul_neg_of_neg_of_pos (div_neg_of_neg_of_pos hug habsT) h100
    have h1 : ¬(0 < T ∧ ug < 0) := fun hx => absurd hx.1 (not_lt.2 (le_of_lt hT))
    have h2 : ¬(T < 0 ∧ 0 < ug) := fun hx => absurd hx.2 (not_lt.2 (le_of_lt hug))
    simp only [contribution_pct_calc, if_neg h1, if_neg h2, if_pos (ne_of_lt hT)]
    exact hc0

lemma holdingOf_eq_some (T : ℚ) (agg : AggregatedPosition)
    (h : HoldingPerformance) (heq : holdingOf T agg = some h) :
    ∃ cv ug, agg.current_value = some cv ∧ agg.unrealized_gain = some ug ∧
      h.unrealized_gain = ug ∧ h.contribution_pct = contribution_pct_calc T ug := by
  cases hcv : agg.current_value with
  | none => simp [holdingOf, hcv] at heq
  | some cv =>
      cases hug : agg.unrealized_gain with
      | none => simp [holdingOf, hcv, hug] at heq
      | some ug =>
          simp only [holdingOf, hcv, hug, Option.some_inj] at heq
          exact ⟨cv, ug, rfl, rfl, by rw [← heq], by rw [← heq]⟩

lemma mem_performance_holdings (portfolio : Portfolio) (h : HoldingPerformance)
    (hmem : h ∈ (get_performance portfolio).holdings) :
    ∃ agg ∈ portfolio.aggregated,
      holdingOf portfolio.total_unrealized_gain agg = some h := by
  by_cases he : portfolio.aggregated.isEmpty
  · simp [get_performance, he] at hmem
  · simp only [get_performance, if_neg he, List.mem_mergeSort,
      List.mem_filterMap] at hmem
    exact hmem

/-- C1 (amended): for every holding `get_performance` reports, the
contribution percent has magnitude `|g| / |T| * 100` (and is `0` when the
total gain `T` is exactly `0`), is negative whenever the holding gain `g`
opposes the sign of `T`, is non-negative when `T > 0` and `g ≥ 0`, and —
contrary to the original claim — is negative (not non-negative) when both
`T < 0` and `g < 0`: the natural sign of `g / |T|` is kept in that case. -/
theorem c1_contribution_sign (portfolio : Portfolio) :
    ∀ h ∈ (get_performance portfolio).holdings,
      (portfolio.total_unrealized_gain = 0 → h.contribution_pct = 0) ∧
      (portfolio.total_unrealized_gain ≠ 0 →
        |h.contribution_pct|
          = |h.unrealized_gain| / |portfolio.total_unrealized_gain| * 100) ∧
      (0 < portfolio.total_unrealized_gain → h.unrealized_gain < 0 →
        h.contribution_pct < 0) ∧
      (portfolio.total_unrealized_gain < 0 → 0 < h.unrealized_gain →
        h.contribution_pct < 0) ∧
      (0 < portfolio.total_unrealized_gain → 0 ≤ h.unrealized_gain →
        0 ≤ h.contribution_pct) ∧
      (portfolio.total_unrealized_gain < 0 → h.unrealized_gain < 0 →
        h.contribution_pct < 0) := by
  intro h hmem
  obtain ⟨agg, -, heq⟩ := mem_performance_holdings portfolio h hmem
  obtain ⟨cv, ug, -, -, hg, hc⟩ := holdingOf_eq_some _ _ _ heq
  obtain ⟨s1, s2, s3, s4, s5, s6⟩ :=
    contribution_pct_calc_spec portfolio.total_unrealized_gain ug
  rw [hg, hc]
  exact ⟨s1, s2, s3, s4, s5, s6⟩

/-- A concrete priced portfolio whose total gain is `-100`, with one holding
down `20` and another down `80` (consistent with two one-share lots bought
at `100` now quoted at `80` and `20`). -/
def c1pf : Portfolio :=
  { aggregated :=
      [{ symbol := "AAA", total_shares := 1, total_cost_basis := 100,
         average_cost := 100, current_price := some 80, current_value := some 80,
         unrealized_gain := some (-20), unrealized_gain_pct := some (-20) },
       { symbol := "BBB", total_shares := 1, total_cost_basis := 100,
         average_cost := 100, current_price := some 20, current_value := some 20,
         unrealized_gain := some (-80), unrealized_gain_pct := some (-80) }]
    total_cost_basis := 200
    total_current_value := 100
    total_unrealized_gain := -100
    total_unrealized_gain_pct := -50
    num_positions := 2
    num_symbols := 2 }

/-- C1 counterexample: with total gain `T = -100 < 0`, the holding whose own
gain is `g = -20 < 0` (same direction as the portfolio) receives
contribution percent `-20`, which is negative — refuting the claim that a
holding agreeing in direction with a negative total is shown non-negative. -/
theorem c1_counterexample :
    c1pf.total_unrealized_gain = -100 ∧
    ((get_performance c1pf).holdings.map
        (fun h => (h.unrealized_gain, h.contribution_pct)))
      = [(-20, -20), (-80, -80)] := by
  refine ⟨by norm_num [c1pf], ?_⟩
  norm_num [get_performance, c1pf, holdingOf, contribution_pct_calc,
    List.filterMap, List.mergeSort, List.merge]

/-- A single-holding portfolio that gained `20` on a cost basis of `100`. -/
def c1wpf : Portfolio :=
  { aggregated :=
      [{ symbol := "AAA", total_shares := 1, total_cost_basis := 100,
         average_cost := 100, current_price := some 120,
         current_value := some 120, unrealized_gain := some 20,
         unrealized_gain_pct := some 20 }]
    total_cost_basis := 100
    total_current_value := 120
    total_unrealized_gain := 20
    total_unrealized_gain_pct := 20
    num_positions := 1
    num_symbols := 1 }

/-- The holding record `get_performance` produces for `c1wpf`. -/
def c1whold : HoldingPerformance :=
  { symbol := "AAA", current_value := 120, cost_basis := 100,
    unrealized_gain := 20, unrealized_gain_pct := 20, weight_pct := 0,
    contribution_pct := 100 }

theorem c1_contribution_sign_witness :
    c1whold ∈ (get_performance c1wpf).holdings ∧
    c1wpf.total_unrealized_gain ≠ 0 ∧
    |c1whold.contribution_pct|
      = |c1whold.unrealized_gain| / |c1wpf.total_unrealized_gain| * 100 ∧
    0 < c1wpf.total_unrealized_gain ∧ 0 ≤ c1whold.unrealized_gain ∧
    0 ≤ c1whold.contribution_pct := by
  have hmem : c1whold ∈ (get_performance c1wpf).holdings := by
    norm_num [get_performance, c1wpf, c1whold, holdingOf, contribution_pct_calc,
      List.filterMap, List.mergeSort]
  have h := c1_contribution_sign c1wpf c1whold hmem
  have hT : (0:ℚ) < c1wpf.total_unrealized_gain := by norm_num [c1wpf]
  have hg : (0:ℚ) ≤ c1whold.unrealized_gain := by norm_num [c1whold]
  exact ⟨hmem, ne_of_gt hT, h.2.1 (ne_of_gt hT), hT, hg, h.2.2.2.2.1 hT hg⟩

/-- The single lot used by the C6 witness. -/
def c6pos : Position :=
  { symbol := "AAPL", shares := 5, purchase_price := 10, purchase_date := 0 }

/-- The aggregated position produced for `c6pos` with no quotes. -/
def c6agg : AggregatedPosition :=
  { symbol := "AAPL", total_shares := 5, total_cost_basis := 50,
    average_cost := 10, lots := [c6pos] }

theorem c6_aggregation_sums_witness :
    c6agg ∈ aggregate_positions [c6pos] (fun _ => none) ∧
    c6agg.lots = [c6pos].filter (fun q => q.symbol = c6agg.symbol) ∧
    c6agg.total_shares = (c6agg.lots.map (·.shares)).sum ∧
    c6agg.total_cost_basis
      = (c6agg.lots.map (fun p => p.shares * p.purchase_price)).sum ∧
    0 < c6agg.total_shares ∧
    c6agg.average_cost = c6agg.total_cost_basis / c6agg.total_shares ∧
    c6agg.average_cost * c6agg.total_shares = c6agg.total_cost_basis := by
  have hmem : c6agg ∈ aggregate_positions [c6pos] (fun _ => none) := by
    norm_num [aggregate_positions, symbol_groups, insertLot, aggregate_one,
      List.mergeSort, c6pos, c6agg]
  have h := c6_aggregation_sums [c6pos] (fun _ => none) c6agg hmem
  have hpos : (0:ℚ) < c6agg.total_shares := by norm_num [c6agg]
  exact ⟨hmem, h.1, h.2.1, h.2.2.1, hpos, (h.2.2.2.1 hpos).1, (h.2.2.2.1 hpos).2⟩

/-! ### Lot-add validation and symbol canonicalization -/

/-- C3 (amended): `add` fails exactly when `shares ≤ 0` or `price ≤ 0`
(rejected by the database `CHECK` constraints); a purchase date in the
future is *not* rejected — for positive shares and price the lot is stored
and returned whatever its date. -/
theorem c3_add_validation (ledger : List PositionRow) (next_id : Nat)
    (symbol : String) (shares price : ℚ) (pdate : Int) (notes : Option String) :
    ((add_position ledger next_id symbol shares price pdate notes).isOk = false ↔
      shares ≤ 0 ∨ price ≤ 0) ∧
    (0 < shares → 0 < price →
      add_position ledger next_id symbol shares price pdate notes =
        Except.ok
          (ledger ++
            [{ id := next_id, symbol := pyUpper symbol, shares := shares,
               purchase_price := price, purchase_date := pdate, notes := notes }],
           { id := some next_id, symbol := uppercase_symbol (pyUpper symbol),
             shares := shares, purchase_price := price, purchase_date := pdate,
             notes := notes })) := by
  constructor
  · by_cases h : 0 < shares ∧ 0 < price
    · rw [add_position, if_pos h]
      simp [Except.isOk, Except.toBool, h.1.not_le, h.2.not_le]
    · rw [add_position, if_neg h]
      simp only [Except.isOk, Except.toBool, true_iff]
      rcases not_and_or.1 h with h | h
      · exact Or.inl (not_lt.1 h)
      · exact Or.inr (not_lt.1 h)
  · intro h1 h2
    rw [add_position, if_pos ⟨h1, h2⟩]

/-- C3 counterexample: with `today = 0`, adding a lot dated `1` (a strictly
future date) with positive shares and price *succeeds*, so "fails exactly
when shares ≤ 0, or price ≤ 0, or the purchase date is strictly after
today" is false at this input. -/
theorem c3_counterexample :
    ¬(((add_position [] 1 "AAPL" 1 1 1 none).isOk = false) ↔
      ((1:ℚ) ≤ 0 ∨ (1:ℚ) ≤ 0 ∨ (0:Int) < 1)) := by
  have hok : (add_position [] 1 "AAPL" (1:ℚ) 1 1 none).isOk = true := by
    rw [add_position, if_pos (by norm_num)]
    rfl
  intro hiff
  have hfalse := hiff.2 (Or.inr (Or.inr (by norm_num)))
  simp [hok] at hfalse

theorem c3_add_validation_witness :
    (0:ℚ) < 2 ∧ (0:ℚ) < 3 ∧
    add_position [] 7 "msft" 2 3 5 none =
      Except.ok
        ([{ id := 7, symbol := pyUpper "msft", shares := 2, purchase_price := 3,
            purchase_date := 5, notes := none }],
         { id := some 7, symbol := uppercase_symbol (pyUpper "msft"), shares := 2,
           purchase_price := 3, purchase_date := 5, notes := none }) := by
  refine ⟨by norm_num, by norm_num, ?_⟩
  exact (c3_add_validation [] 7 "msft" 2 3 5 none).2 (by norm_num) (by norm_num)

/-- C9: the write path stores `symbol.upper()` *without* trimming (here
`"  aapl "` is stored as `"  AAPL "`), while the returned `Position` model
passes the pydantic validator and carries the trimmed `"AAPL"` — so reading
by `"AAPL"` finds nothing and only the untrimmed spelling finds the lot,
contradicting both the claim and the model's own canonical form. -/
theorem c9_symbol_canonicalization_bug :
    add_position [] 1 "  aapl " 1 1 0 none =
      Except.ok
        ([{ id := 1, symbol := "  AAPL ", shares := 1, purchase_price := 1,
            purchase_date := 0, notes := none }],
         { id := some 1, symbol := "AAPL", shares := 1, purchase_price := 1,
           purchase_date := 0, notes := none }) ∧
    get_positions_by_symbol
      [{ id := 1, symbol := "  AAPL ", shares := 1, purchase_price := 1,
         purchase_date := 0, notes := none }] "AAPL" = [] ∧
    get_positions_by_symbol
      [{ id := 1, symbol := "  AAPL ", shares := 1, purchase_price := 1,
         purchase_date := 0, notes := none }] "  aapl "
      = [{ id := some 1, symbol := "AAPL", shares := 1, purchase_price := 1,
           purchase_date := 0, notes := none }] := by
  have h1 : pyUpper "  aapl " = "  AAPL " := by decide
  have h2 : uppercase_symbol (pyUpper "  aapl ") = "AAPL" := by decide
  have h3 : pyUpper "AAPL" = "AAPL" := by decide
  have h4 : ("  AAPL " : String) ≠ "AAPL" := by decide
  have h5 : uppercase_symbol "  AAPL " = "AAPL" := by decide
  refine ⟨?_, ?_, ?_⟩
  · rw [add_position, if_pos (by norm_num), h1, h5]
    simp
  · simp [get_positions_by_symbol, h3, h4, List.filter, List.mergeSort]
  · simp [get_positions_by_symbol, h1, List.filter, List.mergeSort,
      row_to_position, h5]

/-! ### Snapshot upsert -/

lemma filter_date_eq_singleton (st : List SnapshotRow) (d : Int)
    (h : (st.map (·.snapshot_date)).Nodup)
    (r0 : SnapshotRow) (hr0 : r0 ∈ st) (hd : r0.snapshot_date = d) :
    st.filter (fun r => r.snapshot_date = d) = [r0] := by
  induction st with
  | nil => cases hr0
  | cons a t ih =>
      rw [List.map_cons, List.nodup_cons] at h
      rcases List.mem_cons.1 hr0 with rfl | hr0t
      · rw [List.filter_cons_of_pos (by simp [hd])]
        have hnil : t.filter (fun r => r.snapshot_date = d) = [] := by
          rw [List.filter_eq_nil_iff]
          intro b hb hbd
          have hb' : b.snapshot_date = d := of_decide_eq_true hbd
          exact h.1 (by rw [hd, ← hb']; exact List.mem_map_of_mem _ hb)
        rw [hnil]
      · have had : ¬a.snapshot_date = d := by
          intro he
          exact h.1 (by rw [he, ← hd]; exact List.mem_map_of_mem _ hr0t)
        rw [List.filter_cons_of_neg (by simp [had])]
        exact ih h.2 hr0t

lemma save_snapshot_dates (st : List SnapshotRow) (today : Int) (pf : Portfolio) :
    (save_snapshot st today pf).map (·.snapshot_date)
      = if st.any (fun r => r.snapshot_date = today) then
          st.map (·.snapshot_date)
        else st.map (·.snapshot_date) ++ [today] := by
  by_cases h : st.any (fun r => r.snapshot_date = today)
  · rw [save_snapshot, if_pos h, if_pos h, List.map_map]
    apply List.map_congr_left
    intro r _
    simp only [Function.comp]
    by_cases hr : r.snapshot_date = today
    · rw [if_pos hr, snapshot_of, hr]
    · rw [if_neg hr]
  · rw [save_snapshot, if_neg h, if_neg h]
    simp [snapshot_of]

lemma save_snapshot_nodup (st : List SnapshotRow) (today : Int) (pf : Portfolio)
    (h : (st.map (·.snapshot_date)).Nodup) :
    ((save_snapshot st today pf).map (·.snapshot_date)).Nodup := by
  rw [save_snapshot_dates]
  by_cases hany : st.any (fun r => r.snapshot_date = today)
  · rw [if_pos hany]
    exact h
  · rw [if_neg hany]
    have hnot : today ∉ st.map (·.snapshot_date) := by
      intro hmem
      obtain ⟨r, hr, hrd⟩ := List.mem_map.1 hmem
      exact hany (List.any_eq_true.2 ⟨r, hr, decide_eq_true hrd⟩)
    simp [List.nodup_append, h, hnot]

lemma save_snapshot_filter (st : List SnapshotRow) (today : Int) (pf : Portfolio)
    (h : (st.map (·.snapshot_date)).Nodup) :
    (save_snapshot st today pf).filter (fun r => r.snapshot_date = today)
      = [snapshot_of today pf] := by
  by_cases hany : st.any (fun r => r.snapshot_date = today)
  · obtain ⟨r0, hr0, hr0d⟩ := List.any_eq_true.1 hany
    have hr0d' : r0.snapshot_date = today := of_decide_eq_true hr0d
    rw [save_snapshot, if_pos hany, List.filter_map]
    have hcongr :
        st.filter ((fun r => decide (r.snapshot_date = today)) ∘
          (fun r => if r.snapshot_date = today then snapshot_of today pf else r))
        = st.filter (fun r => r.snapshot_date = today) := by
      apply List.filter_congr
      intro r _
      simp only [Function.comp]
      by_cases hr : r.snapshot_date = today
      · simp [hr, snapshot_of]
      · simp [hr]
    rw [hcongr, filter_date_eq_singleton st today h r0 hr0 hr0d', List.map_cons,
      if_pos hr0d']
    rfl
  · rw [save_snapshot, if_neg hany, List.filter_append]
    have hnil : st.filter (fun r => r.snapshot_date = today) = [] := by
      rw [List.filter_eq_nil_iff]
      intro r hr hrd
      exact hany (List.any_eq_true.2 ⟨r, hr, hrd⟩)
    rw [hnil]
    simp [List.filter, snapshot_of]

/-- C5: starting from any snapshot store whose dates are unique (the
`UNIQUE` column constraint), saving twice on the same date leaves exactly
one row keyed by that date, carrying the second save's totals; and for any
store already containing the date, a save never changes the row count. -/
theorem c5_snapshot_upsert (store : List SnapshotRow) (today : Int)
    (pf1 pf2 : Portfolio)
    (h : (store.map (·.snapshot_date)).Nodup) :
    (save_snapshot (save_snapshot store today pf1) today pf2).filter
        (fun r => r.snapshot_date = today) = [snapshot_of today pf2] ∧
    (∀ st : List SnapshotRow, ∀ pf : Portfolio,
      st.any (fun r => r.snapshot_date = today) = true →
      (save_snapshot st today pf).length = st.length) := by
  refine ⟨?_, ?_⟩
  · exact save_snapshot_filter _ today pf2 (save_snapshot_nodup store today pf1 h)
  · intro st pf hany
    rw [save_snapshot, if_pos hany, List.length_map]

/-- The second-save portfolio of the C5 witness. -/
def c5pf : Portfolio := { total_current_value := 5 }

theorem c5_snapshot_upsert_witness :
    ((([] : List SnapshotRow).map (·.snapshot_date)).Nodup) ∧
    (save_snapshot (save_snapshot [] 0 {}) 0 c5pf).filter
        (fun r => r.snapshot_date = 0) = [snapshot_of 0 c5pf] := by
  have hnodup : (([] : List SnapshotRow).map (·.snapshot_date)).Nodup := by simp
  exact ⟨hnodup, (c5_snapshot_upsert [] 0 {} c5pf hnodup).1⟩

/-! ### Python `max`/`min` with first-occurrence tie-breaking -/

lemma pyMax_cons {α : Type} (f : α → ℚ) (x a : α) (t : List α) :
    pyMax f x (a :: t) = if f x < f a then pyMax f a t else pyMax f x t := by
  simp only [pyMax, List.foldl_cons]
  by_cases h : f x < f a <;> simp [h]

lemma pyMax_le {α : Type} (f : α → ℚ) (x : α) (l : List α) :
    ∀ y ∈ x :: l, f y ≤ f (pyMax f x l) := by
  induction l generalizing x with
  | nil =>
      intro y hy
      rw [List.mem_singleton] at hy
      subst hy
      simp [pyMax]
  | cons a t ih =>
      intro y hy
      rw [pyMax_cons]
      by_cases h : f x < f a
      · rw [if_pos h]
        rcases List.mem_cons.1 hy with rfl | hy'
        · exact le_of_lt (lt_of_lt_of_le h (ih a a (List.mem_cons_self a t)))
        · exact ih a y hy'
      · rw [if_neg h]
        rcases List.mem_cons.1 hy with rfl | hy'
        · exact ih y y (List.mem_cons_self y t)
        · rcases List.mem_cons.1 hy' with rfl | hy''
          · exact le_trans (not_lt.1 h) (ih x x (List.mem_cons_self x t))
          · exact ih x y (List.mem_cons.2 (Or.inr hy''))

lemma pyMax_find {α : Type} (f : α → ℚ) (x : α) (l : List α) :
    (x :: l).find? (fun y => f (pyMax f x l) ≤ f y) = some (pyMax f x l) := by
  induction l generalizing x with
  | nil => simp [pyMax]
  | cons a t ih =>
      rw [pyMax_cons]
      by_cases h : f x < f a
      · rw [if_pos h]
        have hax : ¬(f (pyMax f a t) ≤ f x) :=
          not_le.2 (lt_of_lt_of_le h (pyMax_le f a t a (List.mem_cons_self a t)))
        rw [List.find?_cons_of_neg _ (by simp [hax])]
        exact ih a
      · rw [if_neg h]
        by_cases hx : f (pyMax f x t) ≤ f x
        · have hfind := ih x
          rw [List.find?_cons_of_pos _ (by simp [hx])] at hfind
          have hxr : x = pyMax f x t := Option.some.inj hfind
          rw [List.find?_cons_of_pos _ (by simp [hx])]
          rw [← hxr]
        · have hfind := ih x
          rw [List.find?_cons_of_neg _ (by simp [hx])] at hfind
          rw [List.find?_cons_of_neg _ (by simp [hx])]
          have hfa : ¬(f (pyMax f x t) ≤ f a) := by
            intro hle
            exact hx (le_trans hle (not_lt.1 h))
          rw [List.find?_cons_of_neg _ (by simp [hfa])]
          exact hfind

lemma pyMin_cons {α : Type} (f : α → ℚ) (x a : α) (t : List α) :
    pyMin f x (a :: t) = if f a < f x then pyMin f a t else pyMin f x t := by
  simp only [pyMin, List.foldl_cons]
  by_cases h : f a < f x <;> simp [h]

lemma pyMin_le {α : Type} (f : α → ℚ) (x : α) (l : List α) :
    ∀ y ∈ x :: l, f (pyMin f x l) ≤ f y := by
  induction l generalizing x with
  | nil =>
      intro y hy
      rw [List.mem_singleton] at hy
      subst hy
      simp [pyMin]
  | cons a t ih =>
      intro y hy
      rw [pyMin_cons]
      by_cases h : f a < f x
      · rw [if_pos h]
        rcases List.mem_cons.1 hy with rfl | hy'
        · exact le_of_lt (lt_of_le_of_lt (ih a a (List.mem_cons_self a t)) h)
        · exact ih a y hy'
      · rw [if_neg h]
        rcases List.mem_cons.1 hy with rfl | hy'
        · exact ih y y (List.mem_cons_self y t)
        · rcases List.mem_cons.1 hy' with rfl | hy''
          · exact le_trans (ih x x (List.mem_cons_self x t)) (not_lt.1 h)
          · exact ih x y (List.mem_cons.2 (Or.inr hy''))

lemma pyMin_find {α : Type} (f : α → ℚ) (x : α) (l : List α) :
    (x :: l).find? (fun y => f y ≤ f (pyMin f x l)) = some (pyMin f x l) := by
  induction l generalizing x with
  | nil => simp [pyMin]
  | cons a t ih =>
      rw [pyMin_cons]
      by_cases h : f a < f x
      · rw [if_pos h]
        have hax : ¬(f x ≤ f (pyMin f a t)) :=
          not_le.2 (lt_of_le_of_lt (pyMin_le f a t a (List.mem_cons_self a t)) h)
        rw [List.find?_cons_of_neg _ (by simp [hax])]
        exact ih a
      · rw [if_neg h]
        by_cases hx : f x ≤ f (pyMin f x t)
        · have hfind := ih x
          rw [List.find?_cons_of_pos _ (by simp [hx])] at hfind
          have hxr : x = pyMin f x t := Option.some.inj hfind
          rw [List.find?_cons_of_pos _ (by simp [hx])]
          rw [← hxr]
        · have hfind := ih x
          rw [List.find?_cons_of_neg _ (by simp [hx])] at hfind
          rw [List.find?_cons_of_neg _ (by simp [hx])]
          have hfa : ¬(f a ≤ f (pyMin f x t)) := by
            intro hle
            exact hx (le_trans (not_lt.1 h) hle)
          rw [List.find?_cons_of_neg _ (by simp [hfa])]
          exact hfind

/-- C7: an empty history window yields a history object with every derived
field absent; a non-empty ascending window (whose first value is
non-negative, as saved snapshots are) gives endpoints from the first/last
snapshot, `total_change = last - first`, the percent `change/first*100`
guarded to `0` when the first value is `0`, and high/low snapshots that
attain the maximum/minimum total value with ties resolved by the first
occurrence in the ascending order (`find?` returns the first match). -/
theorem c7_history_window (first : SnapshotRow) (rest : List SnapshotRow) :
    ((get_history []).snapshots = [] ∧
     (get_history []).earliest_date = none ∧
     (get_history []).latest_date = none ∧
     (get_history []).starting_value = none ∧
     (get_history []).current_value = none ∧
     (get_history []).total_change = none ∧
     (get_history []).total_change_pct = none ∧
     (get_history []).high_value = none ∧
     (get_history []).high_date = none ∧
     (get_history []).low_value = none ∧
     (get_history []).low_date = none) ∧
    (get_history (first :: rest)).starting_value = some first.total_value ∧
    (get_history (first :: rest)).current_value
      = some ((rest.getLastD first).total_value) ∧
    (get_history (first :: rest)).earliest_date = some first.snapshot_date ∧
    (get_history (first :: rest)).latest_date
      = some ((rest.getLastD first).snapshot_date) ∧
    (get_history (first :: rest)).total_change
      = some ((rest.getLastD first).total_value - first.total_value) ∧
    (first.total_value = 0 →
      (get_history (first :: rest)).total_change_pct = some 0) ∧
    (0 < first.total_value →
      (get_history (first :: rest)).total_change_pct
        = some (((rest.getLastD first).total_value - first.total_value)
            / first.total_value * 100)) ∧
    (∃ hi ∈ first :: rest,
      (get_history (first :: rest)).high_value = some hi.total_value ∧
      (get_history (first :: rest)).high_date = some hi.snapshot_date ∧
      (∀ y ∈ first :: rest, y.total_value ≤ hi.total_value) ∧
      (first :: rest).find? (fun y => hi.total_value ≤ y.total_value) = some hi) ∧
    (∃ lo ∈ first :: rest,
      (get_history (first :: rest)).low_value = some lo.total_value ∧
      (get_history (first :: rest)).low_date = some lo.snapshot_date ∧
      (∀ y ∈ first :: rest, lo.total_value ≤ y.total_value) ∧
      (first :: rest).find? (fun y => y.total_value ≤ lo.total_value) = some lo) := by
  refine ⟨by simp [get_history], by simp [get_history], by simp [get_history],
    by simp [get_history], by simp [get_history], by simp [get_history],
    ?_, ?_, ?_, ?_⟩
  · intro hz
    simp [get_history, hz]
  · intro hp
    simp [get_history, hp]
  · refine ⟨pyMax (·.total_value) first rest, ?_, by simp [get_history],
      by simp [get_history], pyMax_le _ first rest, pyMax_find _ first rest⟩
    exact List.mem_of_find?_eq_some (pyMax_find (·.total_value) first rest)
  · refine ⟨pyMin (·.total_value) first rest, ?_, by simp [get_history],
      by simp [get_history], pyMin_le _ first rest, pyMin_find _ first rest⟩
    exact List.mem_of_find?_eq_some (pyMin_find (·.total_value) first rest)

/-- Snapshots used by the C7 witness: value `10` on day `0`, `5` on day `1`. -/
def c7s0 : SnapshotRow := ⟨0, 10, 0, 0, 0, 0⟩

/-- Second snapshot of the C7 witness. -/
def c7s1 : SnapshotRow := ⟨1, 5, 0, 0, 0, 0⟩

theorem c7_history_window_witness :
    0 < c7s0.total_value ∧
    (get_history [c7s0, c7s1]).total_change = some (-5) ∧
    (get_history [c7s0, c7s1]).total_change_pct = some (-50) := by
  have h := c7_history_window c7s0 [c7s1]
  have hp : 0 < c7s0.total_value := by norm_num [c7s0]
  refine ⟨hp, ?_, ?_⟩
  · rw [h.2.2.2.2.2.1]
    norm_num [c7s0, c7s1, List.getLastD]
  · rw [h.2.2.2.2.2.2.2.1 hp]
    norm_num [c7s0, c7s1, List.getLastD]

/-! ### Sort order of the aggregated list -/

lemma aggregate_positions_pairwise (positions : List Position)
    (pd : String → Option StockAnalysis) :
    (aggregate_positions positions pd).Pairwise
      (fun x y => y.current_value.getD 0 ≤ x.current_value.getD 0) := by
  have htrans : ∀ a b c : AggregatedPosition,
      (fun x y : AggregatedPosition =>
        decide (y.current_value.getD 0 ≤ x.current_value.getD 0)) a b = true →
      (fun x y : AggregatedPosition =>
        decide (y.current_value.getD 0 ≤ x.current_value.getD 0)) b c = true →
      (fun x y : AggregatedPosition =>
        decide (y.current_value.getD 0 ≤ x.current_value.getD 0)) a c = true := by
    intro a b c hab hbc
    simp only [decide_eq_true_eq] at hab hbc ⊢
    exact le_trans hbc hab
  have htotal : ∀ a b : AggregatedPosition,
      ((fun x y : AggregatedPosition =>
        decide (y.current_value.getD 0 ≤ x.current_value.getD 0)) a b ||
       (fun x y : AggregatedPosition =>
        decide (y.current_value.getD 0 ≤ x.current_value.getD 0)) b a) = true := by
    intro a b
    rcases le_total (a.current_value.getD 0) (b.current_value.getD 0) with h | h <;>
      simp [h]
  have hs := List.sorted_mergeSort htrans htotal
    ((symbol_groups positions).map
      (fun g => aggregate_one pd
        ((positions.map (fun p => p.current_value.getD 0)).sum) g.1 g.2))
  simp only [aggregate_positions]
  exact hs.imp (fun h => of_decide_eq_true h)

lemma aggregate_positions_value_pos (positions : List Position)
    (pd : String → Option StockAnalysis)
    (hsh : ∀ p ∈ positions, 0 < p.shares)
    (hpr : ∀ s a cp, pd s = some a → a.current_price = some cp → 0 ≤ cp) :
    ∀ x ∈ aggregate_positions positions pd,
      ∀ v, x.current_value = some v → 0 < v := by
  intro x hx v hv
  obtain ⟨sg, hsg, rfl⟩ := mem_aggregate_positions positions pd x hx
  rw [aggregate_one_current_value] at hv
  cases h : pd sg.1 with
  | none =>
      simp only [h] at hv
      exact Option.noConfusion hv
  | some a =>
      simp only [h] at hv
      cases hcp : a.current_price with
      | none =>
          simp only [hcp] at hv
          exact Option.noConfusion hv
      | some cp =>
          simp only [hcp] at hv
          by_cases hz : cp = 0
          · rw [if_neg (by simpa using hz)] at hv
            exact Option.noConfusion hv
          · rw [if_pos hz] at hv
            have hv' : (sg.2.map (·.shares)).sum * cp = v := Option.some.inj hv
            obtain ⟨hgrp, hne⟩ := symbol_groups_spec positions sg hsg
            have hsum : 0 < (sg.2.map (·.shares)).sum := by
              apply List.sum_pos
              · intro sh hsh'
                obtain ⟨p, hp, rfl⟩ := List.mem_map.1 hsh'
                have hp' : p ∈ positions := by
                  rw [hgrp] at hp
                  exact (List.mem_filter.1 hp).1
                exact hsh p hp'
              · simpa using hne
            have hcp' : 0 < cp :=
              lt_of_le_of_ne (hpr sg.1 a cp h hcp) (Ne.symm hz)
            rw [← hv']
            exact mul_pos hsum hcp'

/-- C8: the aggregated list is sorted by `current_value or 0` descending,
and (given the ledger invariant `shares > 0` and non-negative quoted
prices) every unpriced position comes after every priced one, `0` serving
as the unpriced sort key. -/
theorem c8_aggregated_sorted (positions : List Position)
    (pd : String → Option StockAnalysis)
    (hsh : ∀ p ∈ positions, 0 < p.shares)
    (hpr : ∀ s a cp, pd s = some a → a.current_price = some cp → 0 ≤ cp) :
    (aggregate_positions positions pd).Pairwise
      (fun x y => y.current_value.getD 0 ≤ x.current_value.getD 0) ∧
    (aggregate_positions positions pd).Pairwise
      (fun x y => x.current_value = none → y.current_value = none) := by
  have hpw := aggregate_positions_pairwise positions pd
  refine ⟨hpw, ?_⟩
  have hpos := aggregate_positions_value_pos positions pd hsh hpr
  refine List.Pairwise.imp_of_mem ?_ hpw
  intro a b ha hb hle hnone
  cases hb' : b.current_value with
  | none => rfl
  | some v =>
      have hv := hpos b hb v hb'
      rw [hnone] at hle
      rw [hb'] at hle
      simp only [Option.getD_some, Option.getD_none] at hle
      exact absurd hv (not_lt.2 hle)

/-- The single lot of the C8 witness. -/
def c8pos : Position :=
  { symbol := "AAPL", shares := 1, purchase_price := 10, purchase_date := 0 }

theorem c8_aggregated_sorted_witness :
    0 < c8pos.shares ∧
    ((aggregate_positions [c8pos] (fun _ => none)).Pairwise
      (fun x y => y.current_value.getD 0 ≤ x.current_value.getD 0) ∧
     (aggregate_positions [c8pos] (fun _ => none)).Pairwise
      (fun x y => x.current_value = none → y.current_value = none)) := by
  have h1 : ∀ p ∈ [c8pos], 0 < p.shares := by
    intro p hp
    rw [List.mem_singleton] at hp
    subst hp
    norm_num [c8pos]
  have h2 : ∀ (s : String) (a : StockAnalysis) (cp : ℚ),
      (fun _ => (none : Option StockAnalysis)) s = some a →
      a.current_price = some cp → 0 ≤ cp := by
    intro s a cp h
    cases h
  exact ⟨by norm_num [c8pos], c8_aggregated_sorted [c8pos] (fun _ => none) h1 h2⟩

/-! ### Zero-denominator safety of the valuation -/

lemma enrich_unpriced (pd : String → Option StockAnalysis) (r : PositionRow)
    (hbad : (pd (row_to_position r).symbol).bind (·.current_price) = none ∨
            (pd (row_to_position r).symbol).bind (·.current_price) = some 0) :
    (enrichPosition pd (row_to_position r)).current_value = none ∧
    (enrichPosition pd (row_to_position r)).unrealized_gain = none ∧
    (enrichPosition pd (row_to_position r)).unrealized_gain_pct = none := by
  have hcv := enrichPosition_current_value pd (row_to_position r)
    (by simp [row_to_position])
  have hug := enrichPosition_unrealized_gain pd (row_to_position r)
    (by simp [row_to_position]) (by simp [row_to_position])
  have hugp := enrichPosition_unrealized_gain_pct pd (row_to_position r)
    (by simp [row_to_position]) (by simp [row_to_position])
  have hnone : (enrichPosition pd (row_to_position r)).current_value = none := by
    rw [hcv]
    cases h : pd (row_to_position r).symbol with
    | none => rfl
    | some a =>
        simp only [h, Option.some_bind] at hbad
        rcases hbad with hcp | hcp
        · simp [hcp]
        · simp [hcp]
  exact ⟨hnone, by rw [hug, hnone]; rfl, by rw [hugp, hnone]; rfl⟩

lemma enrich_no_day_change (pd : String → Option StockAnalysis) (r : PositionRow)
    (hbad : (pd (row_to_position r).symbol).bind (·.current_price) = none ∨
            (pd (row_to_position r).symbol).bind (·.current_price) = some 0 ∨
            (pd (row_to_position r).symbol).bind (·.previous_close) = none ∨
            (pd (row_to_position r).symbol).bind (·.previous_close) = some 0) :
    (enrichPosition pd (row_to_position r)).day_change = none ∧
    (enrichPosition pd (row_to_position r)).day_change_pct = none := by
  have hdc := enrichPosition_day_change pd (row_to_position r)
    (by simp [row_to_position])
  have hdcp := enrichPosition_day_change_pct pd (row_to_position r)
    (by simp [row_to_position])
  rw [hdc, hdcp]
  cases h : pd (row_to_position r).symbol with
  | none => simp
  | some a =>
      simp only [h, Option.some_bind] at hbad
      simp only []
      cases hcp : a.current_price with
      | none => simp [hcp]
      | some cp =>
          cases hpc : a.previous_close with
          | none => simp [hcp, hpc]
          | some pc =>
              simp only [hcp, hpc]
              rcases hbad with hb | hb | hb | hb
              · exact absurd hb (by simp [hcp])
              · rw [hcp] at hb
                have hz : cp = 0 := by simpa using hb
                subst hz
                simp
              · exact absurd hb (by simp [hpc])
              · rw [hpc] at hb
                have hz : pc = 0 := by simpa using hb
                subst hz
                simp

/-- C10: valuation never divides by zero — a lot whose quote lacks a price
or quotes it at `0` keeps all value-derived fields absent; day-change
fields are set only when both the current price and the previous close are
present and nonzero (so a zero previous close contributes no day change and
the `previous_close` denominator is never `0`); the same applies to the
aggregated positions. -/
theorem c10_no_zero_division (rows : List PositionRow)
    (pd : String → Option StockAnalysis) :
    (∀ p ∈ (get_portfolio rows pd).positions,
      (((pd p.symbol).bind (·.current_price) = none ∨
        (pd p.symbol).bind (·.current_price) = some 0) →
        p.current_value = none ∧ p.unrealized_gain = none ∧
        p.unrealized_gain_pct = none) ∧
      (((pd p.symbol).bind (·.current_price) = none ∨
        (pd p.symbol).bind (·.current_price) = some 0 ∨
        (pd p.symbol).bind (·.previous_close) = none ∨
        (pd p.symbol).bind (·.previous_close) = some 0) →
        p.day_change = none ∧ p.day_change_pct = none)) ∧
    (∀ a ∈ (get_portfolio rows pd).aggregated,
      ((pd a.symbol).bind (·.current_price) = none ∨
       (pd a.symbol).bind (·.current_price) = some 0) →
        a.current_value = none ∧ a.unrealized_gain = none ∧
        a.unrealized_gain_pct = none) := by
  constructor
  · intro p hp
    rw [get_portfolio_positions] at hp
    obtain ⟨r, hr, rfl⟩ := List.mem_map.1 hp
    rw [enrichPosition_symbol]
    exact ⟨enrich_unpriced pd r, enrich_no_day_change pd r⟩
  · intro a ha hbad
    rw [get_portfolio_aggregated] at ha
    obtain ⟨sg, hsg, rfl⟩ :=
      mem_aggregate_positions ((get_portfolio rows pd).positions) pd a ha
    rw [aggregate_one_symbol] at hbad
    have hcv : (aggregate_one pd
        (((get_portfolio rows pd).positions.map
          (fun p => p.current_value.getD 0)).sum) sg.1 sg.2).current_value
        = none := by
      rw [aggregate_one_current_value]
      cases h : pd sg.1 with
      | none => rfl
      | some q =>
          simp only [h, Option.some_bind] at hbad
          rcases hbad with hcp | hcp
          · simp [hcp]
          · simp [hcp]
    refine ⟨hcv, ?_, ?_⟩
    · rw [aggregate_one_unrealized_gain, hcv]
    · rw [aggregate_one_unrealized_gain_pct, aggregate_one_unrealized_gain, hcv]

/-- The ledger row of the C10 witness. -/
def c10row : PositionRow :=
  { id := 1, symbol := "AAPL", shares := 2, purchase_price := 10,
    purchase_date := 0 }

/-- The C10 witness quote: present but with price `0` and no previous
close. -/
def c10quote : StockAnalysis := { current_price := some 0 }

/-- The enriched position `get_portfolio` produces for `c10row` under
`c10quote` (price stored, everything value-derived absent). -/
def c10pos : Position :=
  { id := some 1, symbol := "AAPL", shares := 2, purchase_price := 10,
    purchase_date := 0, current_price := some 0, cost_basis := some 20 }

theorem c10_no_zero_division_witness :
    c10pos ∈ (get_portfolio [c10row] (fun _ => some c10quote)).positions ∧
    ((fun _ => some c10quote : String → Option StockAnalysis)
        c10pos.symbol).bind (·.current_price) = some 0 ∧
    c10pos.current_value = none ∧ c10pos.unrealized_gain = none ∧
    c10pos.unrealized_gain_pct = none ∧ c10pos.day_change = none ∧
    c10pos.day_change_pct = none := by
  have hup : uppercase_symbol "AAPL" = "AAPL" := by decide
  have hmem : c10pos ∈ (get_portfolio [c10row] (fun _ => some c10quote)).positions := by
    norm_num [get_portfolio, c10row, c10quote, c10pos, row_to_position,
      enrichPosition, hup]
  have hbad : ((fun _ => some c10quote : String → Option StockAnalysis)
      c10pos.symbol).bind (·.current_price) = some 0 := by
    norm_num [c10quote]
  obtain ⟨hval, hday⟩ :=
    (c10_no_zero_division [c10row] (fun _ => some c10quote)).1 c10pos hmem
  obtain ⟨hcv, hug, hugp⟩ := hval (Or.inr hbad)
  obtain ⟨hdc, hdcp⟩ := hday (Or.inr (Or.inl hbad))
  exact ⟨hmem, hbad, hcv, hug, hugp, hdc, hdcp⟩

/-! ### Per-symbol quote failure isolation -/

lemma addSectorWeight_of_unpriced (tcv : ℚ) (alloc : List (String × ℚ))
    (agg : AggregatedPosition) (h : agg.current_value = none) :
    addSectorWeight tcv alloc agg = alloc := by
  cases hs : agg.sector <;> simp [addSectorWeight, hs, h]

lemma foldl_addSectorWeight_nil (tcv : ℚ) (aggs : List AggregatedPosition)
    (h : ∀ a ∈ aggs, a.current_value = none) :
    aggs.foldl (addSectorWeight tcv) [] = [] := by
  suffices hgen : ∀ acc : List (String × ℚ), aggs.foldl (addSectorWeight tcv) acc = acc by
    exact hgen []
  induction aggs with
  | nil => intro acc; rfl
  | cons a t ih =>
      intro acc
      rw [List.foldl_cons,
        addSectorWeight_of_unpriced tcv acc a (h a (List.mem_cons_self a t))]
      exact ih (fun b hb => h b (List.mem_cons.2 (Or.inr hb))) acc

lemma sum_map_zero {α : Type} (l : List α) (f : α → ℚ) (h : ∀ x ∈ l, f x = 0) :
    (l.map f).sum = 0 := by
  induction l with
  | nil => rfl
  | cons a t ih =>
      rw [List.map_cons, List.sum_cons, h a (List.mem_cons_self a t),
        ih (fun b hb => h b (List.mem_cons.2 (Or.inr hb)))]
      norm_num

/-- C4 (amended): quote failures are isolated per symbol — the portfolio is
always computed, every position whose symbol's quote failed appears fully
unpriced, and when every quote fails the portfolio is still returned, with
total current value and total day change `0`, an empty sector allocation
and every aggregated position unpriced; the total unrealized gain then
equals *minus the total cost basis* (not its zero default, as the original
claim asserted). -/
theorem c4_quote_failure_isolation (rows : List PositionRow)
    (quotes : String → Except Unit StockAnalysis) :
    ((get_portfolio rows (fun s => (quotes s).toOption)).positions
      = rows.map (fun r =>
          enrichPosition (fun s => (quotes s).toOption) (row_to_position r))) ∧
    (∀ p ∈ (get_portfolio rows (fun s => (quotes s).toOption)).positions,
      (quotes p.symbol).isOk = false →
        p.current_price = none ∧ p.current_value = none ∧
        p.unrealized_gain = none ∧ p.unrealized_gain_pct = none ∧
        p.day_change = none ∧ p.day_change_pct = none) ∧
    ((∀ s, (quotes s).isOk = false) →
      (get_portfolio rows (fun s => (quotes s).toOption)).total_current_value = 0 ∧
      (get_portfolio rows (fun s => (quotes s).toOption)).total_day_change = 0 ∧
      (get_portfolio rows (fun s => (quotes s).toOption)).total_unrealized_gain
        = -(get_portfolio rows (fun s => (quotes s).toOption)).total_cost_basis ∧
      (get_portfolio rows (fun s => (quotes s).toOption)).sector_allocation = [] ∧
      (∀ a ∈ (get_portfolio rows (fun s => (quotes s).toOption)).aggregated,
        a.current_value = none)) := by
  set pd : String → Option StockAnalysis := fun s => (quotes s).toOption with hpd
  have hfail : ∀ s, (quotes s).isOk = false → pd s = none := by
    intro s hs
    rw [hpd]
    cases hq : quotes s with
    | ok a => rw [hq] at hs; exact absurd hs (by simp [Except.isOk, Except.toBool])
    | error e => simp [hq, Except.toOption]
  refine ⟨get_portfolio_positions rows pd, ?_, ?_⟩
  · intro p hp hqf
    rw [get_portfolio_positions] at hp
    obtain ⟨r, hr, rfl⟩ := List.mem_map.1 hp
    rw [enrichPosition_symbol] at hqf
    have hnone := hfail _ hqf
    simp only [row_to_position] at hnone
    simp [enrichPosition, hnone, row_to_position]
  · intro hall
    have hnone : ∀ s, pd s = none := fun s => hfail s (hall s)
    have hposnone : ∀ p ∈ (get_portfolio rows pd).positions,
        p.current_value = none ∧ p.day_change = none := by
      intro p hp
      rw [get_portfolio_positions] at hp
      obtain ⟨r, hr, rfl⟩ := List.mem_map.1 hp
      simp [enrichPosition, hnone, row_to_position]
    have htcv : (get_portfolio rows pd).total_current_value = 0 := by
      rw [get_portfolio_total_current_value]
      exact sum_map_zero _ _ (fun p hp => by rw [(hposnone p hp).1]; rfl)
    have haggnone : ∀ a ∈ (get_portfolio rows pd).aggregated,
        a.current_value = none := by
      intro a ha
      rw [get_portfolio_aggregated] at ha
      obtain ⟨sg, hsg, rfl⟩ := mem_aggregate_positions _ pd a ha
      rw [aggregate_one_current_value, hnone]
    refine ⟨htcv, ?_, ?_, ?_, haggnone⟩
    · rw [get_portfolio_total_day_change]
      exact sum_map_zero _ _ (fun p hp => by rw [(hposnone p hp).2]; rfl)
    · rw [get_portfolio_total_unrealized_gain, htcv]
      ring
    · rw [get_portfolio_sector_allocation]
      exact foldl_addSectorWeight_nil _ _ haggnone

/-- The single ledger row used by the C4 counterexample and witness. -/
def c4row : PositionRow :=
  { id := 1, symbol := "AAPL", shares := 10, purchase_price := 50,
    purchase_date := 0 }

/-- C4 counterexample to the "all value-derived totals at their
zero/undefined defaults" clause: one lot of `10` shares bought at `50` with
every quote failing yields `total_unrealized_gain = -500` and
`total_unrealized_gain_pct = -100`, not the zero defaults (the current
value and day change are indeed `0`). -/
theorem c4_counterexample :
    (get_portfolio [c4row] (fun _ => none)).total_current_value = 0 ∧
    (get_portfolio [c4row] (fun _ => none)).total_unrealized_gain = -500 ∧
    (get_portfolio [c4row] (fun _ => none)).total_unrealized_gain_pct = -100 := by
  norm_num [get_portfolio, c4row, row_to_position, enrichPosition,
    aggregate_positions, symbol_groups, insertLot, aggregate_one,
    addSectorWeight, List.mergeSort]

/-- The quote-failure function of the C4 witness: every symbol fails. -/
def c4quotes : String → Except Unit StockAnalysis := fun _ => Except.error ()

theorem c4_quote_failure_isolation_witness :
    (c4quotes "AAPL").isOk = false ∧
    (get_portfolio [c4row] (fun s => (c4quotes s).toOption)).total_current_value
      = 0 ∧
    (get_portfolio [c4row] (fun s => (c4quotes s).toOption)).total_day_change
      = 0 ∧
    (get_portfolio [c4row] (fun s => (c4quotes s).toOption)).total_unrealized_gain
      = -(get_portfolio [c4row] (fun s => (c4quotes s).toOption)).total_cost_basis ∧
    (get_portfolio [c4row] (fun s => (c4quotes s).toOption)).sector_allocation
      = [] := by
  have hall : ∀ s, (c4quotes s).isOk = false := by
    intro s
    simp [c4quotes, Except.isOk, Except.toBool]
  have h := (c4_quote_failure_isolation [c4row] c4quotes).2.2 hall
  exact ⟨hall "AAPL", h.1, h.2.1, h.2.2.1, h.2.2.2.1⟩

end PortfolioApp
